import Mathlib

/-!
Verification development for the graph layout engine of the d3-visualization
repository (source: src/plots/graph.ts).  The TypeScript data model and the
pure computations of the GraphPlot class are embedded shallowly:

* JS numbers are modelled as rationals (ℚ); the claims checked here only
  involve equality, ordering and field arithmetic on them.
* an optional JS property is an Option value: a property that is present
  (even holding undefined is not distinguished by the code paths modelled
  here) is some, an absent property is none.
* edge endpoints are typed string | IGraphVertex in the source; they are
  modelled by the sum type EdgeEnd.
* the recursive hierarchy construction has no termination guard in the
  source; it is modelled with an explicit fuel parameter standing for the
  (unbounded) JS call stack.
-/

namespace GraphSpec

/-- Styling record, mirroring IPlotStyle as used by graph.ts: optional fill
color, fill radius, stroke color and stroke width. -/
structure IPlotStyle where
  fillColor : Option String := Option.none
  fillRadius : Option ℚ := Option.none
  strokeColor : Option String := Option.none
  strokeWidth : Option ℚ := Option.none
deriving DecidableEq

/-- A vertex (IGraphVertex extends d3.SimulationNodeDatum): identity and
caller-supplied fields plus the simulation-owned position (x, y), velocity
(vx, vy) and pin (fx, fy) properties. -/
structure IGraphVertex where
  id : String
  label : Option String := Option.none
  selected : Option Bool := Option.none
  expanded : Option Bool := Option.none
  style : Option IPlotStyle := Option.none
  x : Option ℚ := Option.none
  y : Option ℚ := Option.none
  vx : Option ℚ := Option.none
  vy : Option ℚ := Option.none
  fx : Option ℚ := Option.none
  fy : Option ℚ := Option.none
deriving DecidableEq

/-- An edge endpoint is typed string | IGraphVertex in the source. -/
inductive EdgeEnd where
  | str : String → EdgeEnd
  | vert : IGraphVertex → EdgeEnd
deriving DecidableEq

/-- An edge (IGraphEdge): directed flag, endpoints, optional label, style and
radial stacking offset (only the y component is ever used by graph.ts). -/
structure IGraphEdge where
  directed : Bool
  source : EdgeEnd
  target : EdgeEnd
  label : Option String := Option.none
  style : Option IPlotStyle := Option.none
  offsetY : Option ℚ := Option.none
deriving DecidableEq

/-- The caller-owned data: the full vertex set and edge set. -/
structure IGraphPlotData where
  vertices : List IGraphVertex
  edges : List IGraphEdge
deriving DecidableEq

/-- The id an endpoint refers to: the string itself, or the id field of the
vertex object. -/
def idOf : EdgeEnd → String
  | EdgeEnd.str s => s
  | EdgeEnd.vert v => v.id

/-- Membership test of a raw endpoint value in the string-keyed Map of new
vertices, as in mapNew.has(edge.source as string) of the data setter: a
string endpoint is looked up by value; a vertex-object endpoint is never a
key of the string-keyed Map, so the test is false regardless of whether the
referenced vertex exists. -/
def mapHasEnd (ids : List String) : EdgeEnd → Bool
  | EdgeEnd.str s => ids.contains s
  | EdgeEnd.vert _ => false

/-- Lookup in new Map(vertices.map(node => [node.id, node])): when several
vertices share an id the Map keeps the last entry. -/
def lastWithId (vs : List IGraphVertex) (vid : String) : Option IGraphVertex :=
  (vs.filter (fun v => v.id == vid)).getLast?

/-- First-operand-wins choice between optional properties, modelling which of
two object spreads supplies a property: the first operand's property is kept
when present, otherwise the second operand's. -/
def orP (a b : Option α) : Option α :=
  match a with
  | Option.some x => Option.some x
  | Option.none => b

/-- Merge performed by the data setter for a vertex whose id already exists:
destructure id, label, expanded, selected, style off the new node, then
spread rest (the new node's remaining properties), then the old node (so its
position, velocity and pin properties override), then reassert the five
destructured fields from the new node (graph.ts lines 791 to 806). -/
def mergeVertex (existNode node : IGraphVertex) : IGraphVertex :=
  { id := node.id
    label := node.label
    selected := node.selected
    expanded := node.expanded
    style := node.style
    x := orP existNode.x node.x
    y := orP existNode.y node.y
    vx := orP existNode.vx node.vx
    vy := orP existNode.vy node.vy
    fx := orP existNode.fx node.fx
    fy := orP existNode.fy node.fy }

/-- The data setter (graph.ts lines 786 to 816): preserve positioning and
velocity of nodes still in the graph, and keep only the edges whose raw
source and target values are keys of the new vertex Map. -/
def dataReplace (oldData newData : IGraphPlotData) : IGraphPlotData :=
  { vertices := newData.vertices.map (fun node =>
      match lastWithId oldData.vertices node.id with
      | Option.none => node
      | Option.some existNode => mergeVertex existNode node)
    edges := newData.edges.filter (fun edge =>
      mapHasEnd (newData.vertices.map (fun v => v.id)) edge.source &&
      mapHasEnd (newData.vertices.map (fun v => v.id)) edge.target) }

/-- Two data snapshots of equal shape that may differ only in the label of
the vertex at index j; every other field of every vertex agrees position for
position (decidable so that concrete instances evaluate). -/
def eqExceptLabelAt (oldData newData : IGraphPlotData) (j : ℕ) : Bool :=
  oldData.vertices.length == newData.vertices.length &&
  (List.range oldData.vertices.length).all (fun k =>
    match oldData.vertices[k]?, newData.vertices[k]? with
    | Option.some vo, Option.some vn =>
        vo.id == vn.id && vo.selected == vn.selected && vo.expanded == vn.expanded &&
        vo.style == vn.style && vo.x == vn.x && vo.y == vn.y && vo.vx == vn.vx &&
        vo.vy == vn.vy && vo.fx == vn.fx && vo.fy == vn.fy &&
        (k == j || vo.label == vn.label)
    | _, _ => true)

lemma orP_self (a : Option α) : orP a a = a := by
  cases a <;> rfl

lemma lastWithId_eq_self (vs : List IGraphVertex)
    (hnd : (vs.map (fun v => v.id)).Nodup) {v : IGraphVertex} (hv : v ∈ vs) :
    lastWithId vs v.id = Option.some v := by
  induction vs with
  | nil => cases hv
  | cons h t ih =>
    rw [List.map_cons, List.nodup_cons] at hnd
    rcases List.mem_cons.mp hv with rfl | hvt
    · have hfilt : t.filter (fun w => w.id == v.id) = [] := by
        apply List.filter_eq_nil_iff.mpr
        intro w hw hbeq
        exact hnd.1 (by
          have : w.id = v.id := by simpa using hbeq
          rw [← this]
          exact List.mem_map_of_mem (fun u => u.id) hw)
      simp [lastWithId, List.filter_cons, hfilt]
    · have hne : (h.id == v.id) = false := by
        apply beq_eq_false_iff_ne.mpr
        intro heq
        exact hnd.1 (heq ▸ List.mem_map_of_mem (fun u => u.id) hvt)
      have := ih hnd.2 hvt
      simpa [lastWithId, List.filter_cons, hne] using this

lemma dataReplace_vertices_getElem (oldData newData : IGraphPlotData) (i : ℕ) :
    (dataReplace oldData newData).vertices[i]? =
      (newData.vertices[i]?).map (fun node =>
        match lastWithId oldData.vertices node.id with
        | Option.none => node
        | Option.some existNode => mergeVertex existNode node) := by
  simp [dataReplace]

/-- C1: on a data replacement, a vertex of the new graph whose id already
exists in the previous graph keeps the new vertex's label, style, selected
and expanded fields, while the position, velocity and pin properties present
on the previous instance take precedence over the new one's; in particular,
replacing a graph with one identical except for one vertex's label leaves
every vertex's position field bit-identical. -/
theorem dataReplace_carryover :
    (∀ (oldData newData : IGraphPlotData) (i : ℕ) (v ov : IGraphVertex),
      newData.vertices[i]? = Option.some v →
      lastWithId oldData.vertices v.id = Option.some ov →
      (dataReplace oldData newData).vertices[i]? = Option.some
        { id := v.id, label := v.label, selected := v.selected,
          expanded := v.expanded, style := v.style,
          x := orP ov.x v.x, y := orP ov.y v.y, vx := orP ov.vx v.vx,
          vy := orP ov.vy v.vy, fx := orP ov.fx v.fx, fy := orP ov.fy v.fy }) ∧
    (∀ (oldData newData : IGraphPlotData) (j : ℕ),
      (oldData.vertices.map (fun v => v.id)).Nodup →
      eqExceptLabelAt oldData newData j = true →
      ∀ i : ℕ, ((dataReplace oldData newData).vertices[i]?).map (fun r => (r.x, r.y)) =
        (oldData.vertices[i]?).map (fun vv => (vv.x, vv.y))) := by
  constructor
  · intro oldData newData i v ov hv hov
    rw [dataReplace_vertices_getElem, hv]
    simp [hov, mergeVertex]
  · intro oldData newData j hnd heq i
    unfold eqExceptLabelAt at heq
    rw [Bool.and_eq_true, beq_iff_eq, List.all_eq_true] at heq
    obtain ⟨hlen, hall⟩ := heq
    rw [dataReplace_vertices_getElem]
    by_cases hi : i < oldData.vertices.length
    · have hin : i < newData.vertices.length := hlen ▸ hi
      obtain ⟨vo, hvo⟩ : ∃ vo, oldData.vertices[i]? = Option.some vo :=
        ⟨oldData.vertices[i], List.getElem?_eq_getElem hi⟩
      obtain ⟨vn, hvn⟩ : ∃ vn, newData.vertices[i]? = Option.some vn :=
        ⟨newData.vertices[i], List.getElem?_eq_getElem hin⟩
      have hk := hall i (List.mem_range.mpr hi)
      rw [hvo, hvn] at hk
      simp only [Bool.and_eq_true, beq_iff_eq] at hk
      obtain ⟨⟨⟨⟨⟨⟨⟨⟨⟨⟨hid, _⟩, _⟩, _⟩, hx⟩, hy⟩, _⟩, _⟩, _⟩, _⟩, _⟩ := hk
      have hmem : vo ∈ oldData.vertices := List.getElem?_mem hvo
      have hlast : lastWithId oldData.vertices vn.id = Option.some vo := by
        rw [← hid]
        exact lastWithId_eq_self oldData.vertices hnd hmem
      rw [hvn, hvo]
      simp only [Option.map_some', hlast]
      simp only [mergeVertex]
      rw [← hx, ← hy]
      simp [orP_self]
    · have hio : oldData.vertices[i]? = Option.none := by
        rw [List.getElem?_eq_none_iff]
        omega
      have hinn : newData.vertices[i]? = Option.none := by
        rw [List.getElem?_eq_none_iff]
        omega
      rw [hio, hinn]
      rfl

/-- Concrete previous snapshot for the data-replacement witnesses. -/
def c1OldData : IGraphPlotData :=
  { vertices := [
      { id := "A", label := Option.some ("alpha"), x := Option.some 10,
        y := Option.some 20, vx := Option.some 1 },
      { id := "B", x := Option.some 3, y := Option.some 4 }],
    edges := [] }

/-- Replacement identical to c1OldData except for the first vertex's label. -/
def c1NewData : IGraphPlotData :=
  { vertices := [
      { id := "A", label := Option.some ("beta"), x := Option.some 10,
        y := Option.some 20, vx := Option.some 1 },
      { id := "B", x := Option.some 3, y := Option.some 4 }],
    edges := [] }

/-- Replacement whose first vertex changes label and supplies a fresh x. -/
def c1NewData2 : IGraphPlotData :=
  { vertices := [{ id := "A", label := Option.some ("gamma"), x := Option.some 99 }],
    edges := [] }

/-- The single vertex of c1NewData2. -/
def c1NewV : IGraphVertex :=
  { id := "A", label := Option.some ("gamma"), x := Option.some 99 }

/-- The first vertex of c1OldData. -/
def c1OldV : IGraphVertex :=
  { id := "A", label := Option.some ("alpha"), x := Option.some 10,
    y := Option.some 20, vx := Option.some 1 }

/-- Witness instantiating dataReplace_carryover on concrete snapshots. -/
theorem dataReplace_carryover_witness :
    ((dataReplace c1OldData c1NewData2).vertices[0]? = Option.some
      { id := c1NewV.id, label := c1NewV.label, selected := c1NewV.selected,
        expanded := c1NewV.expanded, style := c1NewV.style,
        x := orP c1OldV.x c1NewV.x, y := orP c1OldV.y c1NewV.y,
        vx := orP c1OldV.vx c1NewV.vx, vy := orP c1OldV.vy c1NewV.vy,
        fx := orP c1OldV.fx c1NewV.fx, fy := orP c1OldV.fy c1NewV.fy }) ∧
    (((dataReplace c1OldData c1NewData).vertices[1]?).map (fun r => (r.x, r.y)) =
      (c1OldData.vertices[1]?).map (fun vv => (vv.x, vv.y))) :=
  ⟨dataReplace_carryover.1 c1OldData c1NewData2 0 c1NewV c1OldV (by decide) (by decide),
   dataReplace_carryover.2 c1OldData c1NewData 0 (by decide) (by decide) 1⟩

/-- Data with a single vertex A and a dangling edge A to B, where B is absent. -/
def c6NewData : IGraphPlotData :=
  { vertices := [{ id := "A" }],
    edges := [{ directed := true, source := EdgeEnd.str ("A"),
                target := EdgeEnd.str ("B") }] }

/-- The dangling edge of c6NewData. -/
def c6Edge : IGraphEdge :=
  { directed := true, source := EdgeEnd.str ("A"), target := EdgeEnd.str ("B") }

/-- C6: on a data replacement, every edge whose source or target id is absent
from the new graph's vertex set is dropped from the stored edge set, and no
error is raised; in particular a graph with vertex set consisting of A alone
and one edge from A to the absent B stores an empty edge set while vertex A
is retained. -/
theorem dangling_edges_dropped :
    (∀ (oldData newData : IGraphPlotData) (e : IGraphEdge),
      (idOf e.source ∉ newData.vertices.map (fun v => v.id) ∨
       idOf e.target ∉ newData.vertices.map (fun v => v.id)) →
      e ∉ (dataReplace oldData newData).edges) ∧
    ((dataReplace { vertices := [], edges := [] } c6NewData).edges = [] ∧
     (dataReplace { vertices := [], edges := [] } c6NewData).vertices.map
       (fun v => v.id) = [("A")]) := by
  constructor
  · intro oldData newData e habs hmem
    have hp := (List.mem_filter.mp hmem).2
    rw [Bool.and_eq_true] at hp
    rcases habs with habs | habs
    · cases hsrc : e.source with
      | str s =>
        apply habs
        rw [hsrc]
        have := hp.1
        rw [hsrc] at this
        simpa [mapHasEnd, idOf] using this
      | vert v =>
        have := hp.1
        rw [hsrc] at this
        simp [mapHasEnd] at this
    · cases htgt : e.target with
      | str s =>
        apply habs
        rw [htgt]
        have := hp.2
        rw [htgt] at this
        simpa [mapHasEnd, idOf] using this
      | vert v =>
        have := hp.2
        rw [htgt] at this
        simp [mapHasEnd] at this
  · constructor
    · decide
    · decide

/-- Witness instantiating dangling_edges_dropped on the dangling edge. -/
theorem dangling_edges_dropped_witness :
    c6Edge ∉ (dataReplace { vertices := [], edges := [] } c6NewData).edges :=
  dangling_edges_dropped.1 { vertices := [], edges := [] } c6NewData c6Edge
    (Or.inr (by decide))

/-- Vertex A used by the object-endpoint scenario. -/
def c10A : IGraphVertex := { id := "A" }

/-- Vertex B used by the object-endpoint scenario. -/
def c10B : IGraphVertex := { id := "B" }

/-- An edge whose endpoints are supplied as vertex objects, both of which
exist in the new graph. -/
def c10Edge : IGraphEdge :=
  { directed := true, source := EdgeEnd.vert c10A, target := EdgeEnd.vert c10B }

/-- Data whose vertices both exist and whose sole edge references them by
object rather than by id string. -/
def c10NewData : IGraphPlotData :=
  { vertices := [c10A, c10B], edges := [c10Edge] }

/-- C10: the data-replacement edge filter tests the raw source and target
values for membership in the string-keyed map of new vertices, so an edge
whose source or target is supplied as a vertex object is dropped on
replacement even when the referenced vertices exist in the new graph. -/
theorem object_edges_dropped :
    (∀ (oldData newData : IGraphPlotData) (e : IGraphEdge),
      ((∃ v, e.source = EdgeEnd.vert v) ∨ (∃ v, e.target = EdgeEnd.vert v)) →
      e ∉ (dataReplace oldData newData).edges) ∧
    ((dataReplace { vertices := [], edges := [] } c10NewData).edges = [] ∧
     idOf c10Edge.source ∈ c10NewData.vertices.map (fun v => v.id) ∧
     idOf c10Edge.target ∈ c10NewData.vertices.map (fun v => v.id)) := by
  constructor
  · intro oldData newData e hobj hmem
    have hp := (List.mem_filter.mp hmem).2
    rw [Bool.and_eq_true] at hp
    rcases hobj with ⟨v, hv⟩ | ⟨v, hv⟩
    · have := hp.1
      rw [hv] at this
      simp [mapHasEnd] at this
    · have := hp.2
      rw [hv] at this
      simp [mapHasEnd] at this
  · refine ⟨by decide, by decide, by decide⟩

/-- Witness instantiating object_edges_dropped on the object-endpoint edge. -/
theorem object_edges_dropped_witness :
    c10Edge ∉ (dataReplace { vertices := [], edges := [] } c10NewData).edges :=
  object_edges_dropped.1 { vertices := [], edges := [] } c10NewData c10Edge
    (Or.inl ⟨c10A, rfl⟩)

/-- The directionality values of the layout; the string "none" of the source
selects the free-form force mode. -/
inductive GraphDirectionality where
  | free
  | horizontal
  | vertical
  | radial
deriving DecidableEq

/-- Transition options of the layout. -/
structure TransitionOpts where
  duration : Option ℚ := Option.none
deriving DecidableEq

/-- The layout information consumed by the graph plot: an optional transition
override and an optional directionality (both absent by default). -/
structure IGraphPlotLayout where
  transition : Option TransitionOpts := Option.none
  directionality : Option GraphDirectionality := Option.none
deriving DecidableEq

/-- layout.directionality === "none" (graph.ts lines 458 to 460). -/
def isNoneDirectionality (layout : IGraphPlotLayout) : Bool :=
  layout.directionality == Option.some GraphDirectionality.free

/-- layout.directionality === "radial" (graph.ts lines 462 to 464). -/
def isRadialDirectionality (layout : IGraphPlotLayout) : Bool :=
  layout.directionality == Option.some GraphDirectionality.radial

/-- transition() (graph.ts lines 474 to 479): the default duration is 0 when
the current directionality is the free-form "none" and 500 otherwise, and a
duration supplied in layout.transition overrides the default by spreading.
The function reads only the current layout; no previous mode enters. -/
def transitionDuration (layout : IGraphPlotLayout) : ℚ :=
  match layout.transition with
  | Option.some t =>
    match t.duration with
    | Option.some d => d
    | Option.none => if isNoneDirectionality layout then 0 else 500
  | Option.none => if isNoneDirectionality layout then 0 else 500

/-- How a redraw applies node positions: directly with no interpolation, or
through an eased transition of a given duration. -/
inductive NodeUpdateMode where
  | direct
  | interpolated (duration : ℚ)
deriving DecidableEq

/-- updateNodeSel (graph.ts lines 505 to 523): in the free-form "none" mode
positions are set directly on every simulation tick; in every other mode the
update runs through a transition of duration transitionDuration. -/
def updateNodeSelMode (layout : IGraphPlotLayout) : NodeUpdateMode :=
  if isNoneDirectionality layout then NodeUpdateMode.direct
  else NodeUpdateMode.interpolated (transitionDuration layout)

/-- The layout in force after any transition into free-form mode. -/
def c7FreeLayout : IGraphPlotLayout :=
  { directionality := Option.some GraphDirectionality.free }

/-- A tree-mode layout with no duration override. -/
def c7RadialLayout : IGraphPlotLayout :=
  { directionality := Option.some GraphDirectionality.radial }

/-- C7 counterexample: the redraw configuration is a function of the current
layout only; once the new state is free-form the node update is applied
directly with duration 0, never through the 500 time-unit interpolation, so
a transition from a tree mode into free-form does not use the interpolated
transition claimed for it. -/
theorem transition_duration_counterexample :
    updateNodeSelMode c7FreeLayout = NodeUpdateMode.direct ∧
    transitionDuration c7FreeLayout = 0 ∧ (0 : ℚ) ≠ 500 := by
  refine ⟨by decide, by decide, by decide⟩

/-- C7 amended: the interpolation choice depends only on the current mode.
Every redraw in free-form mode applies positions directly, tick by tick,
with no interpolation; every redraw in a tree mode uses the interpolated
transition, whose duration is 500 by default and is overridden by a
caller-supplied layout.transition duration. -/
theorem transition_duration_amended :
    (∀ layout : IGraphPlotLayout, isNoneDirectionality layout = true →
      updateNodeSelMode layout = NodeUpdateMode.direct) ∧
    (∀ layout : IGraphPlotLayout, isNoneDirectionality layout = false →
      layout.transition.bind (fun t => t.duration) = Option.none →
      updateNodeSelMode layout = NodeUpdateMode.interpolated 500) ∧
    (∀ (layout : IGraphPlotLayout) (d : ℚ), isNoneDirectionality layout = false →
      layout.transition.bind (fun t => t.duration) = Option.some d →
      updateNodeSelMode layout = NodeUpdateMode.interpolated d) := by
  refine ⟨?_, ?_, ?_⟩
  · intro layout h
    simp [updateNodeSelMode, h]
  · intro layout h hov
    cases htr : layout.transition with
    | none => simp [updateNodeSelMode, transitionDuration, htr, h]
    | some t =>
      rw [htr] at hov
      replace hov : t.duration = Option.none := hov
      simp [updateNodeSelMode, transitionDuration, htr, hov, h]
  · intro layout d h hov
    cases htr : layout.transition with
    | none => rw [htr] at hov; simp at hov
    | some t =>
      rw [htr] at hov
      replace hov : t.duration = Option.some d := hov
      simp [updateNodeSelMode, transitionDuration, htr, hov, h]

/-- Witness instantiating transition_duration_amended on concrete layouts. -/
theorem transition_duration_amended_witness :
    updateNodeSelMode c7FreeLayout = NodeUpdateMode.direct ∧
    updateNodeSelMode c7RadialLayout = NodeUpdateMode.interpolated 500 :=
  ⟨transition_duration_amended.1 c7FreeLayout (by decide),
   transition_duration_amended.2.1 c7RadialLayout (by decide) (by decide)⟩

/-- The fixed nominal per-node radius (graph.ts line 149). -/
def defaultRadius : ℚ := 15

/-- v.style?.fillRadius ?? this._defaultRadius. -/
def resolvedRadius (v : IGraphVertex) : ℚ :=
  (v.style.bind (fun s => s.fillRadius)).getD defaultRadius

/-- v.style?.fillColor ?? the default fill color. -/
def resolvedColor (v : IGraphVertex) : String :=
  (v.style.bind (fun s => s.fillColor)).getD ("#a1d7a1")

/-- Math.sign. -/
def qsign (q : ℚ) : ℚ :=
  if q < 0 then -1 else if 0 < q then 1 else 0

/-- A locator element (IGraphLocator): the vertex, the clamped on-screen
position, the arrow scale and color.  The rotation field of the source is
atan2(by, bx) converted to degrees, a transcendental function of the x and y
fields recorded here; it is omitted from the embedding because no claim
constrains its value. -/
structure IGraphLocator where
  vertex : IGraphVertex
  x : ℚ
  y : ℚ
  scale : ℚ
  color : String
deriving DecidableEq

/-- calcLocator (graph.ts lines 594 to 629): given the pan/zoom transform
(x = tx, y = ty, k) and the viewport size (w, h), a vertex inside the
viewport (inflated by its resolved radius) yields no locator; otherwise the
clamped position is chosen on whichever viewport edge the ray from the
center crosses first, with the clamped axis coordinate pulled in by
defaultRadius from the half-extent. -/
def calcLocatorAt (tx ty k w h : ℚ) (v : IGraphVertex) (vx vy : ℚ) :
    Option IGraphLocator :=
  let sx := tx + k * vx
  let sy := ty + k * vy
  let r := resolvedRadius v
  if sx + r ≥ -w / 2 ∧ sx - r < w / 2 ∧ sy + r ≥ -h / 2 ∧ sy - r < h / 2 then
    Option.none
  else if |sx| * h ≤ |sy| * w then
    Option.some { vertex := v, x := h / 2 * sx / |sy|,
                  y := qsign sy * (h / 2 - defaultRadius),
                  scale := resolvedRadius v / defaultRadius,
                  color := resolvedColor v }
  else
    Option.some { vertex := v, x := qsign sx * (w / 2 - defaultRadius),
                  y := w / 2 * sy / |sx|,
                  scale := resolvedRadius v / defaultRadius,
                  color := resolvedColor v }

/-- Wrapper performing the undefined-position early return of calcLocator. -/
def calcLocator (tx ty k w h : ℚ) (v : IGraphVertex) : Option IGraphLocator :=
  match v.x, v.y with
  | Option.some vx, Option.some vy => calcLocatorAt tx ty k w h v vx vy
  | _, _ => Option.none

/-- A vertex far above a 100 by 100 viewport. -/
def c8FarVertex : IGraphVertex :=
  { id := "far", x := Option.some 0, y := Option.some 1000 }

/-- The locator the code produces for c8FarVertex. -/
def c8FarLocator : IGraphLocator :=
  { vertex := c8FarVertex, x := 0, y := 35, scale := 1, color := "#a1d7a1" }

/-- A vertex exactly at the viewport center. -/
def c8CenterVertex : IGraphVertex :=
  { id := "center", x := Option.some 0, y := Option.some 0 }

/-- C8 counterexample: under the identity transform on a 100 by 100 viewport
a vertex at (0, 1000) produces a locator clamped to (0, 35), which does not
lie on the viewport boundary (the lines with absolute coordinate 50): the
clamped axis is pulled in by the 15-unit default radius. -/
theorem locator_boundary_counterexample :
    calcLocator 0 0 1 100 100 c8FarVertex = Option.some c8FarLocator ∧
    ¬ (|c8FarLocator.x| = 100 / 2 ∨ |c8FarLocator.y| = 100 / 2) := by
  constructor
  · norm_num [calcLocator, calcLocatorAt, c8FarVertex, c8FarLocator, resolvedRadius,
      resolvedColor, defaultRadius, qsign]
  · norm_num [c8FarLocator]

/-- C8 amended: a vertex at the viewport center under the identity transform
never produces a locator; and whenever a locator is produced, it lies on the
ray-crossing edge of the viewport with the clamped-axis coordinate pulled in
by defaultRadius from the half-extent (not exactly on the boundary), while
the perpendicular coordinate is the intersection of the center ray with the
full boundary line and stays within the viewport's half-extent. -/
theorem locator_amended :
    (∀ (w h : ℚ) (v : IGraphVertex), 0 < w → 0 < h → 0 ≤ resolvedRadius v →
      v.x = Option.some 0 → v.y = Option.some 0 →
      calcLocator 0 0 1 w h v = Option.none) ∧
    (∀ (tx ty k w h : ℚ) (v : IGraphVertex) (loc : IGraphLocator) (vx vy : ℚ),
      0 < w → 0 < h → 0 ≤ resolvedRadius v →
      v.x = Option.some vx → v.y = Option.some vy →
      calcLocator tx ty k w h v = Option.some loc →
      ((|tx + k * vx| * h ≤ |ty + k * vy| * w →
          loc.y = qsign (ty + k * vy) * (h / 2 - defaultRadius) ∧
          loc.x * |ty + k * vy| = h / 2 * (tx + k * vx) ∧
          |loc.x| ≤ w / 2) ∧
       (|ty + k * vy| * w < |tx + k * vx| * h →
          loc.x = qsign (tx + k * vx) * (w / 2 - defaultRadius) ∧
          loc.y * |tx + k * vx| = w / 2 * (ty + k * vy) ∧
          |loc.y| ≤ h / 2))) := by
  constructor
  · intro w h v hw hh hr hx hy
    simp only [calcLocator, hx, hy, calcLocatorAt]
    split_ifs with h1 h2
    · rfl
    · exact absurd (⟨by linarith, by linarith, by linarith, by linarith⟩ :
        (0:ℚ) + 1 * 0 + resolvedRadius v ≥ -w / 2 ∧
        (0:ℚ) + 1 * 0 - resolvedRadius v < w / 2 ∧
        (0:ℚ) + 1 * 0 + resolvedRadius v ≥ -h / 2 ∧
        (0:ℚ) + 1 * 0 - resolvedRadius v < h / 2) h1
    · exact absurd (⟨by linarith, by linarith, by linarith, by linarith⟩ :
        (0:ℚ) + 1 * 0 + resolvedRadius v ≥ -w / 2 ∧
        (0:ℚ) + 1 * 0 - resolvedRadius v < w / 2 ∧
        (0:ℚ) + 1 * 0 + resolvedRadius v ≥ -h / 2 ∧
        (0:ℚ) + 1 * 0 - resolvedRadius v < h / 2) h1
  · intro tx ty k w h v loc vx vy hw hh hr hx hy hloc
    simp only [calcLocator, hx, hy, calcLocatorAt] at hloc
    set sx := tx + k * vx with hsx
    set sy := ty + k * vy with hsy
    split_ifs at hloc with hin hcl
    · have heq := Option.some_inj.mp hloc
      subst heq
      have hsy0 : sy ≠ 0 := by
        intro h0
        rw [h0] at hcl
        simp only [abs_zero, zero_mul] at hcl
        have habs : |sx| = 0 := le_antisymm (by nlinarith [abs_nonneg sx]) (abs_nonneg sx)
        have hsx0 : sx = 0 := abs_eq_zero.mp habs
        exact hin ⟨by rw [hsx0]; linarith, by rw [hsx0]; linarith,
          by rw [h0]; linarith, by rw [h0]; linarith⟩
      have hsyp : 0 < |sy| := abs_pos.mpr hsy0
      constructor
      · intro _
        refine ⟨rfl, ?_, ?_⟩
        · exact div_mul_cancel₀ _ (ne_of_gt hsyp)
        · dsimp only
          rw [abs_div, abs_abs, abs_mul, div_le_iff₀ hsyp,
            abs_of_pos (by linarith : (0:ℚ) < h / 2)]
          nlinarith [hcl]
      · intro hgt
        exact absurd hcl (not_le.mpr hgt)
    · rw [not_le] at hcl
      have heq := Option.some_inj.mp hloc
      subst heq
      have hsx0 : sx ≠ 0 := by
        intro h0
        rw [h0] at hcl
        simp only [abs_zero, zero_mul] at hcl
        nlinarith [abs_nonneg sy, abs_nonneg sx, mul_nonneg (abs_nonneg sy) (le_of_lt hw)]
      have hsxp : 0 < |sx| := abs_pos.mpr hsx0
      constructor
      · intro hle
        exact absurd hle (not_le.mpr hcl)
      · intro _
        refine ⟨rfl, ?_, ?_⟩
        · exact div_mul_cancel₀ _ (ne_of_gt hsxp)
        · dsimp only
          rw [abs_div, abs_abs, abs_mul, div_le_iff₀ hsxp,
            abs_of_pos (by linarith : (0:ℚ) < w / 2)]
          nlinarith [hcl]

/-- Witness instantiating locator_amended at the viewport center and at the
far vertex of the counterexample configuration. -/
theorem locator_amended_witness :
    calcLocator 0 0 1 100 100 c8CenterVertex = Option.none ∧
    (c8FarLocator.y = qsign ((0:ℚ) + 1 * 1000) * (100 / 2 - defaultRadius) ∧
     c8FarLocator.x * |(0:ℚ) + 1 * 1000| = 100 / 2 * ((0:ℚ) + 1 * 0) ∧
     |c8FarLocator.x| ≤ 100 / 2) :=
  ⟨locator_amended.1 100 100 c8CenterVertex (by norm_num) (by norm_num)
     (by norm_num [resolvedRadius, defaultRadius, c8CenterVertex]) rfl rfl,
   (locator_amended.2 0 0 1 100 100 c8FarVertex c8FarLocator 0 1000
     (by norm_num) (by norm_num)
     (by norm_num [resolvedRadius, defaultRadius, c8FarVertex]) rfl rfl
     (by norm_num [calcLocator, calcLocatorAt, c8FarVertex, c8FarLocator,
        resolvedRadius, resolvedColor, defaultRadius, qsign])).1
     (by norm_num)⟩

/-- The test an edge performs in the children filter of withChildren and in
the link directed-flag recovery (graph.ts lines 437 to 442 and 361 to 373):
one disjunct compares the object representation's ids, the other the string
representation's values; an edge whose endpoints mix the two representations
satisfies neither disjunct. -/
def edgeMatches (e : IGraphEdge) (pid cid : String) : Bool :=
  match e.source, e.target with
  | EdgeEnd.str s, EdgeEnd.str t => s == pid && t == cid
  | EdgeEnd.vert sv, EdgeEnd.vert tv => sv.id == pid && tv.id == cid
  | _, _ => false

/-- The incoming-edge test of the root filter (graph.ts lines 450 to 453):
(target as IGraphVertex).id === vertex.id || target === vertex.id covers
both representations of the target, independently of the source. -/
def targetIdIs (e : IGraphEdge) (vid : String) : Bool :=
  match e.target with
  | EdgeEnd.str t => t == vid
  | EdgeEnd.vert tv => tv.id == vid

/-- Whether some edge of the list links the parent id to the child id. -/
def hasEdgeB (edges : List IGraphEdge) (pid cid : String) : Bool :=
  edges.any (fun e => edgeMatches e pid cid)

/-- A derived tree node (ITreePlotData): the copied vertex fields plus the
children list. -/
inductive ITreePlotData where
  | mk (id : String) (label : Option String) (selected : Option Bool)
      (expanded : Option Bool) (style : Option IPlotStyle)
      (children : List ITreePlotData)

/-- The id of a tree node. -/
def ITreePlotData.id : ITreePlotData → String
  | ITreePlotData.mk i _ _ _ _ _ => i

/-- The label of a tree node. -/
def ITreePlotData.label : ITreePlotData → Option String
  | ITreePlotData.mk _ l _ _ _ _ => l

/-- The children of a tree node. -/
def ITreePlotData.children : ITreePlotData → List ITreePlotData
  | ITreePlotData.mk _ _ _ _ _ cs => cs

/-- withChildren of buildHierarchyTreeData (graph.ts lines 425 to 446): copy
the vertex fields and recursively attach as children every vertex that is
the target of an edge whose source is the current vertex.  The source
recursion carries no fuel and no visited set; the fuel argument here models
the unbounded JS call stack (children are truncated when it runs out) so
that the embedding is total.  A hierarchy the source constructs in finitely
many calls is the value of this function for every sufficiently large
fuel. -/
def withChildren (vertices : List IGraphVertex) (edges : List IGraphEdge) :
    Nat → IGraphVertex → ITreePlotData
  | 0, parent =>
    ITreePlotData.mk parent.id parent.label parent.selected parent.expanded
      parent.style []
  | fuel + 1, parent =>
    ITreePlotData.mk parent.id parent.label parent.selected parent.expanded
      parent.style
      ((vertices.filter (fun child => hasEdgeB edges parent.id child.id)).map
        (withChildren vertices edges fuel))

/-- The root filter of buildHierarchyTreeData (graph.ts lines 447 to 455):
roots are the vertices that no edge targets. -/
def isRootVertex (edges : List IGraphEdge) (v : IGraphVertex) : Bool :=
  !(edges.any (fun e => targetIdIs e v.id))

/-- buildHierarchyTreeData (graph.ts lines 421 to 456), with the explicit
fuel of withChildren. -/
def buildHierarchyTreeData (g : IGraphPlotData) (fuel : Nat) : List ITreePlotData :=
  (g.vertices.filter (isRootVertex g.edges)).map (withChildren g.vertices g.edges fuel)

mutual

/-- Number of nodes of a tree (the descendant count of d3.hierarchy). -/
def treeSize : ITreePlotData → Nat
  | ITreePlotData.mk _ _ _ _ _ cs => 1 + treeSizeList cs

/-- Total number of nodes of a list of trees. -/
def treeSizeList : List ITreePlotData → Nat
  | [] => 0
  | t :: ts => treeSize t + treeSizeList ts

end

mutual

/-- The ids of all nodes of a tree, in preorder, with multiplicity. -/
def treeIds : ITreePlotData → List String
  | ITreePlotData.mk i _ _ _ _ cs => i :: treeIdsList cs

/-- The ids of all nodes of a list of trees. -/
def treeIdsList : List ITreePlotData → List String
  | [] => []
  | t :: ts => treeIds t ++ treeIdsList ts

end

/-- The hierarchy construction stabilizes on g exactly when, from some fuel
onward, increasing the modelled call-stack depth no longer changes the
result; this is when the unguarded source recursion returns at all. -/
def BuildStabilizes (g : IGraphPlotData) : Prop :=
  ∃ n, ∀ m, n ≤ m → buildHierarchyTreeData g m = buildHierarchyTreeData g n

/-- Vertex A of the cyclic scenario. -/
def cvA : IGraphVertex := { id := "A" }

/-- Vertex B of the cyclic scenario. -/
def cvB : IGraphVertex := { id := "B" }

/-- Vertex C of the cyclic scenario. -/
def cvC : IGraphVertex := { id := "C" }

/-- A graph with root A and the cycle B to C to B reachable from A. -/
def cycleGraph : IGraphPlotData :=
  { vertices := [cvA, cvB, cvC],
    edges := [
      { directed := true, source := EdgeEnd.str ("A"), target := EdgeEnd.str ("B") },
      { directed := true, source := EdgeEnd.str ("B"), target := EdgeEnd.str ("C") },
      { directed := true, source := EdgeEnd.str ("C"), target := EdgeEnd.str ("B") }] }

lemma cycle_children_A :
    cycleGraph.vertices.filter
      (fun child => hasEdgeB cycleGraph.edges cvA.id child.id) = [cvB] := by
  decide

lemma cycle_children_B :
    cycleGraph.vertices.filter
      (fun child => hasEdgeB cycleGraph.edges cvB.id child.id) = [cvC] := by
  decide

lemma cycle_children_C :
    cycleGraph.vertices.filter
      (fun child => hasEdgeB cycleGraph.edges cvC.id child.id) = [cvB] := by
  decide

lemma cycle_size_BC (n : Nat) :
    treeSize (withChildren cycleGraph.vertices cycleGraph.edges n cvB) = n + 1 ∧
    treeSize (withChildren cycleGraph.vertices cycleGraph.edges n cvC) = n + 1 := by
  induction n with
  | zero => constructor <;> rfl
  | succ k ih =>
    constructor
    · rw [withChildren, cycle_children_B]
      simp only [List.map_cons, List.map_nil, treeSize, treeSizeList]
      rw [ih.2]
      omega
    · rw [withChildren, cycle_children_C]
      simp only [List.map_cons, List.map_nil, treeSize, treeSizeList]
      rw [ih.1]
      omega

lemma cycle_size_A (n : Nat) :
    treeSize (withChildren cycleGraph.vertices cycleGraph.edges n cvA) = n + 1 := by
  cases n with
  | zero => rfl
  | succ k =>
    rw [withChildren, cycle_children_A]
    simp only [List.map_cons, List.map_nil, treeSize, treeSizeList]
    rw [(cycle_size_BC k).1]
    omega

lemma cycle_forest (fuel : Nat) :
    buildHierarchyTreeData cycleGraph fuel =
      [withChildren cycleGraph.vertices cycleGraph.edges fuel cvA] := by
  have hroot : cycleGraph.vertices.filter (isRootVertex cycleGraph.edges) = [cvA] := by
    decide
  rw [buildHierarchyTreeData, hroot, List.map_cons, List.map_nil]

/-- C3 counterexample: the child-collection traversal of the source has no
revisit guard; on the graph with root A and cycle B, C the tree under A
grows strictly with every extra unit of call-stack fuel, so the construction
never stabilizes: the unguarded recursion of the source does not terminate
on a graph containing a cycle reachable from a root. -/
theorem hierarchy_cycle_no_termination : ¬ BuildStabilizes cycleGraph := by
  rintro ⟨n, hn⟩
  have h1 := hn (n + 1) (Nat.le_succ n)
  rw [cycle_forest, cycle_forest] at h1
  have h2 : withChildren cycleGraph.vertices cycleGraph.edges (n + 1) cvA =
      withChildren cycleGraph.vertices cycleGraph.edges n cvA := by
    injection h1
  have h3 := congrArg treeSize h2
  rw [cycle_size_A, cycle_size_A] at h3
  omega

/-- An edge matches its own endpoint ids exactly when its two endpoints use
the same representation (both strings, or both vertex objects). -/
def sameRep (e : IGraphEdge) : Bool :=
  edgeMatches e (idOf e.source) (idOf e.target)

lemma edgeMatches_ids {e : IGraphEdge} {p c : String}
    (h : edgeMatches e p c = true) :
    idOf e.source = p ∧ idOf e.target = c ∧ sameRep e = true := by
  cases hs : e.source with
  | str s =>
    cases ht : e.target with
    | str t =>
      rw [edgeMatches, hs, ht, Bool.and_eq_true, beq_iff_eq, beq_iff_eq] at h
      refine ⟨by simp [idOf, h.1], by simp [idOf, h.2], ?_⟩
      rw [sameRep, edgeMatches, hs, ht]
      simp [idOf]
    | vert tv =>
      rw [edgeMatches, hs, ht] at h
      exact absurd h (by simp)
  | vert sv =>
    cases ht : e.target with
    | str t =>
      rw [edgeMatches, hs, ht] at h
      exact absurd h (by simp)
    | vert tv =>
      rw [edgeMatches, hs, ht, Bool.and_eq_true, beq_iff_eq, beq_iff_eq] at h
      refine ⟨by simp [idOf, h.1], by simp [idOf, h.2], ?_⟩
      rw [sameRep, edgeMatches, hs, ht]
      simp [idOf]

lemma hasEdgeB_rank {g : IGraphPlotData} {rank : String → Nat}
    (hrank : ∀ e ∈ g.edges, sameRep e = true →
      rank (idOf e.target) < rank (idOf e.source))
    {p c : String} (h : hasEdgeB g.edges p c = true) : rank c < rank p := by
  rw [hasEdgeB, List.any_eq_true] at h
  obtain ⟨e, he, hem⟩ := h
  obtain ⟨hsrc, htgt, hsr⟩ := edgeMatches_ids hem
  have := hrank e he hsr
  rw [hsrc, htgt] at this
  exact this

lemma withChildren_stable (g : IGraphPlotData) (rank : String → Nat)
    (hrank : ∀ e ∈ g.edges, sameRep e = true →
      rank (idOf e.target) < rank (idOf e.source)) :
    ∀ (n m : Nat) (v : IGraphVertex), rank v.id < n → rank v.id < m →
      withChildren g.vertices g.edges n v = withChildren g.vertices g.edges m v := by
  intro n
  induction n with
  | zero => intro m v hn; omega
  | succ k ih =>
    intro m v hn hm
    cases m with
    | zero => omega
    | succ j =>
      simp only [withChildren, ITreePlotData.mk.injEq, true_and]
      apply List.map_congr_left
      intro c hc
      have hedge : hasEdgeB g.edges v.id c.id = true := by
        simpa using (List.mem_filter.mp hc).2
      have hlt : rank c.id < rank v.id := hasEdgeB_rank hrank hedge
      exact ih j c (by omega) (by omega)

/-- C3 amended: the traversal has no revisit guard, so termination is a
property of the input graph rather than of the code: whenever the edge
relation admits a rank that strictly decreases from source to target (in
particular on every acyclic graph), hierarchy construction stabilizes from
any fuel bounding the vertex ranks; the counterexample shows it does not
terminate once a cycle is reachable from a root. -/
theorem hierarchy_terminates_on_ranked (g : IGraphPlotData) (rank : String → Nat)
    (fuel : Nat)
    (hrank : ∀ e ∈ g.edges, sameRep e = true →
      rank (idOf e.target) < rank (idOf e.source))
    (hfuel : ∀ v ∈ g.vertices, rank v.id < fuel) :
    (∀ m, fuel ≤ m → buildHierarchyTreeData g m = buildHierarchyTreeData g fuel) ∧
    BuildStabilizes g := by
  have hstab : ∀ m, fuel ≤ m →
      buildHierarchyTreeData g m = buildHierarchyTreeData g fuel := by
    intro m hm
    rw [buildHierarchyTreeData, buildHierarchyTreeData]
    apply List.map_congr_left
    intro r hr
    have hrv : r ∈ g.vertices := (List.mem_filter.mp hr).1
    exact withChildren_stable g rank hrank m fuel r
      (by have := hfuel r hrv; omega) (hfuel r hrv)
  exact ⟨hstab, ⟨fuel, hstab⟩⟩

/-- An acyclic two-level graph used to witness the stabilization theorem. -/
def rankedGraph : IGraphPlotData :=
  { vertices := [{ id := "R" }, { id := "S" }, { id := "T" }],
    edges := [
      { directed := true, source := EdgeEnd.str ("R"), target := EdgeEnd.str ("S") },
      { directed := false, source := EdgeEnd.str ("S"), target := EdgeEnd.str ("T") }] }

/-- A rank function decreasing along the edges of rankedGraph. -/
def rankedGraphRank (s : String) : Nat :=
  if s == ("R") then 2 else if s == ("S") then 1 else 0

/-- Witness instantiating hierarchy_terminates_on_ranked on rankedGraph. -/
theorem hierarchy_terminates_on_ranked_witness : BuildStabilizes rankedGraph :=
  (hierarchy_terminates_on_ranked rankedGraph rankedGraphRank 3
    (by decide) (by decide)).2

mutual

/-- Number of leaves of a tree: nodes with no children (the leaves count of
d3.hierarchy, where a node whose children accessor yields an empty array is
a leaf). -/
def leafCount : ITreePlotData → Nat
  | ITreePlotData.mk _ _ _ _ _ [] => 1
  | ITreePlotData.mk _ _ _ _ _ (c :: cs) => leafCountList (c :: cs)

/-- Total number of leaves of a list of trees. -/
def leafCountList : List ITreePlotData → Nat
  | [] => 0
  | t :: ts => leafCount t + leafCountList ts

end

/-- The size metric of buildHierarchyTree (graph.ts lines 299 to 302):
multiple = (radial ? descendants * PI : 0) + leaves, where descendants and
leaves are the node and leaf counts of the hierarchy. -/
noncomputable def hierarchyMultiple (radial : Bool) (t : ITreePlotData) : ℝ :=
  (if radial then (treeSize t : ℝ) * Real.pi else 0) + (leafCount t : ℝ)

/-- The layout radius of buildHierarchyTree (graph.ts lines 303 to 306):
radius = PI * defaultRadius ** (radial ? 1 : 2) * sqrt(multiple), with
defaultRadius = 15.  Real numbers are required for pi and sqrt, so the
definition is noncomputable and claims about it are settled symbolically. -/
noncomputable def hierarchyRadius (radial : Bool) (t : ITreePlotData) : ℝ :=
  Real.pi * (15 : ℝ) ^ (if radial then 1 else 2) *
    Real.sqrt (hierarchyMultiple radial t)

/-- A single-vertex tree. -/
def c4Tree : ITreePlotData :=
  ITreePlotData.mk ("N") Option.none Option.none Option.none Option.none []

lemma c4Tree_counts : treeSize c4Tree = 1 ∧ leafCount c4Tree = 1 := by
  constructor <;> rfl

/-- C4 counterexample: in radial mode the code raises the base radius to the
first power, not the square: already on a single-vertex tree the computed
radius pi * 15 * sqrt(pi + 1) differs from the claimed
pi * 15 ^ 2 * sqrt(multiple). -/
theorem radial_radius_counterexample :
    hierarchyRadius true c4Tree ≠
      Real.pi * (15 : ℝ) ^ 2 * Real.sqrt (hierarchyMultiple true c4Tree) := by
  intro h
  have hm : 0 < hierarchyMultiple true c4Tree := by
    rw [hierarchyMultiple, c4Tree_counts.1, c4Tree_counts.2]
    simp only [if_true]
    have := Real.pi_pos
    push_cast
    linarith
  have hs : 0 < Real.sqrt (hierarchyMultiple true c4Tree) := Real.sqrt_pos.mpr hm
  have hp := Real.pi_pos
  rw [hierarchyRadius] at h
  simp only [if_true, pow_one] at h
  nlinarith [mul_pos hp hs]

/-- C4 amended: the size metric for radial mode is
multiple = leafCount + descendantCount * pi as claimed, but the radial
layout radius is pi * baseRadius * sqrt(multiple) with the base radius of 15
entering to the first power; the square of the base radius enters only in
the horizontal and vertical modes, whose metric omits the descendant
term. -/
theorem radial_radius_amended :
    ∀ t : ITreePlotData,
      hierarchyMultiple true t = (leafCount t : ℝ) + (treeSize t : ℝ) * Real.pi ∧
      hierarchyRadius true t =
        Real.pi * (15 : ℝ) *
          Real.sqrt ((leafCount t : ℝ) + (treeSize t : ℝ) * Real.pi) ∧
      hierarchyRadius false t =
        Real.pi * (15 : ℝ) ^ 2 * Real.sqrt ((leafCount t : ℝ)) := by
  intro t
  have hmul : hierarchyMultiple true t =
      (leafCount t : ℝ) + (treeSize t : ℝ) * Real.pi := by
    rw [hierarchyMultiple]
    simp only [if_true]
    ring
  refine ⟨hmul, ?_, ?_⟩
  · rw [hierarchyRadius, hmul]
    simp only [if_true, pow_one]
  · rw [hierarchyRadius, hierarchyMultiple]
    simp only [if_false, Bool.false_eq_true, zero_add]

mutual

/-- The parent-child id pairs of a tree, as root.links() enumerates the
hierarchy's edges. -/
def treeLinks : ITreePlotData → List (String × String)
  | ITreePlotData.mk i _ _ _ _ cs => cs.map (fun c => (i, c.id)) ++ treeLinksList cs

/-- The parent-child id pairs of a list of trees. -/
def treeLinksList : List ITreePlotData → List (String × String)
  | [] => []
  | t :: ts => treeLinks t ++ treeLinksList ts

end

/-- A synthesized layout edge: parent id, child id and the recovered
directed flag. -/
structure LayoutLink where
  sourceId : String
  targetId : String
  directed : Bool
deriving DecidableEq

/-- The directed-flag recovery of buildHierarchyTree (graph.ts lines 361 to
373): the synthesized link is marked directed exactly when some directed
edge matches source = parent and target = child; the two disjuncts of the
source both test that same orientation, one per endpoint representation. -/
def linkDirected (edges : List IGraphEdge) (pid cid : String) : Bool :=
  edges.any (fun e => e.directed && edgeMatches e pid cid)

/-- The synthesized layout edges of a tree with their recovered directed
flags (graph.ts lines 355 to 375). -/
def buildLinks (edges : List IGraphEdge) (t : ITreePlotData) : List LayoutLink :=
  (treeLinks t).map (fun pc =>
    { sourceId := pc.1, targetId := pc.2, directed := linkDirected edges pc.1 pc.2 })

/-- The spec's wording: a directed edge exists between the id pair in either
orientation. -/
def directedEitherOrientation (edges : List IGraphEdge) (pid cid : String) : Bool :=
  edges.any (fun e => e.directed && (edgeMatches e pid cid || edgeMatches e cid pid))

/-- A tree with root A and single child B. -/
def c5Tree : ITreePlotData :=
  ITreePlotData.mk ("A") Option.none Option.none Option.none Option.none
    [ITreePlotData.mk ("B") Option.none Option.none Option.none Option.none []]

/-- Edges giving the parent-child pair A, B an undirected edge in the
parent-to-child orientation and a directed edge in the reverse
orientation. -/
def c5Edges : List IGraphEdge :=
  [{ directed := false, source := EdgeEnd.str ("A"), target := EdgeEnd.str ("B") },
   { directed := true, source := EdgeEnd.str ("B"), target := EdgeEnd.str ("A") }]

/-- C5 counterexample: the graph holds a directed edge between the pair A, B
(in the child-to-parent orientation), yet the synthesized layout edge from A
to B is not marked directed: the source checks only the parent-to-child
orientation, its two disjuncts being the two endpoint representations, not
the two orientations. -/
theorem link_directed_counterexample :
    buildLinks c5Edges c5Tree =
      [{ sourceId := "A", targetId := "B", directed := false }] ∧
    directedEitherOrientation c5Edges ("A") ("B") = true := by
  exact ⟨by decide, by decide⟩

/-- C5 amended: a synthesized parent-child layout edge is marked directed if
and only if the original graph contains a directed edge with source equal to
the parent id and target equal to the child id (in that orientation only,
under either endpoint representation); a directed edge in the reverse
orientation is not detected. -/
theorem link_directed_amended :
    ∀ (edges : List IGraphEdge) (t : ITreePlotData) (l : LayoutLink),
      l ∈ buildLinks edges t →
      (l.directed = true ↔
        ∃ e ∈ edges, e.directed = true ∧ edgeMatches e l.sourceId l.targetId = true) := by
  intro edges t l hl
  rw [buildLinks] at hl
  obtain ⟨pc, hpc, rfl⟩ := List.mem_map.mp hl
  simp only [linkDirected, List.any_eq_true, Bool.and_eq_true]

/-- Witness instantiating link_directed_amended on the c5 scenario's layout
edge. -/
theorem link_directed_amended_witness :
    ¬ ∃ e ∈ c5Edges, e.directed = true ∧
        edgeMatches e ("A") ("B") = true :=
  fun h =>
    by
      have hl : ({ sourceId := "A", targetId := "B", directed := false } : LayoutLink) ∈
          buildLinks c5Edges c5Tree := by decide
      have := (link_directed_amended c5Edges c5Tree _ hl).mpr h
      exact Bool.false_ne_true this

/-- Lexicographic strict comparison of character-code sequences, the order
the host language applies to strings (and hence the order d3.ascending
induces on labels). -/
def lexLt : List ℕ → List ℕ → Bool
  | [], [] => false
  | [], _ :: _ => true
  | _ :: _, [] => false
  | a :: as, b :: bs =>
    if a < b then true else if b < a then false else lexLt as bs

/-- The character codes of a label, when present. -/
def labelKey (t : ITreePlotData) : Option (List ℕ) :=
  t.label.map (fun s => s.data.map Char.toNat)

/-- The sort comparator of buildHierarchyTree (graph.ts lines 296 to 298):
d3.ascending(a.data.label, b.data.label) tells the stable host sort to put
a after b only when both labels are present and a's label is strictly
greater; any comparison involving an absent label yields NaN, which the sort
treats as a tie.  labelLe a b states that a may stay before b. -/
def labelLe (a b : ITreePlotData) : Bool :=
  match labelKey a, labelKey b with
  | Option.some x, Option.some y => !(lexLt y x)
  | _, _ => true

lemma lexLt_asymm : ∀ l1 l2, lexLt l1 l2 = true → lexLt l2 l1 = false := by
  intro l1
  induction l1 with
  | nil =>
    intro l2 h
    cases l2 with
    | nil => simp [lexLt] at h
    | cons b bs => rfl
  | cons a as ih =>
    intro l2 h
    cases l2 with
    | nil => simp [lexLt] at h
    | cons b bs =>
      rw [lexLt] at h ⊢
      by_cases hab : a < b
      · rw [if_neg (by omega), if_pos hab]
      · rw [if_neg hab] at h
        by_cases hba : b < a
        · rw [if_pos hba] at h
          cases h
        · rw [if_neg hba] at h
          rw [if_neg hba, if_neg hab]
          exact ih bs h

lemma lexLt_negtrans : ∀ l1 l2 l3, lexLt l2 l1 = false → lexLt l3 l2 = false →
    lexLt l3 l1 = false := by
  intro l1
  induction l1 with
  | nil =>
    intro l2 l3 h1 h2
    cases l3 with
    | nil => rfl
    | cons c cs => rfl
  | cons a as ih =>
    intro l2 l3 h1 h2
    cases l2 with
    | nil => simp [lexLt] at h1
    | cons b bs =>
      cases l3 with
      | nil => simp [lexLt] at h2
      | cons c cs =>
        rw [lexLt] at h1 h2 ⊢
        by_cases hba : b < a
        · rw [if_pos hba] at h1
          cases h1
        · rw [if_neg hba] at h1
          by_cases hcb : c < b
          · rw [if_pos hcb] at h2
            cases h2
          · rw [if_neg hcb] at h2
            rw [if_neg (by omega : ¬ c < a)]
            by_cases hac : a < c
            · rw [if_pos hac]
            · rw [if_neg hac]
              have hab : ¬ a < b := by omega
              have hbc : ¬ b < c := by omega
              rw [if_neg hab] at h1
              rw [if_neg hbc] at h2
              exact ih bs cs h1 h2

lemma labelLe_total (a b : ITreePlotData) :
    labelLe a b = true ∨ labelLe b a = true := by
  rw [labelLe, labelLe]
  cases ha : labelKey a with
  | none => left; cases hb : labelKey b <;> rfl
  | some x =>
    cases hb : labelKey b with
    | none => left; rfl
    | some y =>
      by_cases h : lexLt y x = true
      · right
        simp [lexLt_asymm y x h]
      · left
        rw [Bool.not_eq_true] at h
        simp [h]

lemma labelLe_trans {a b c : ITreePlotData}
    (hb : (labelKey b).isSome = true)
    (h1 : labelLe a b = true) (h2 : labelLe b c = true) :
    labelLe a c = true := by
  rw [labelLe] at h1 h2 ⊢
  cases ha : labelKey a with
  | none => cases hc : labelKey c <;> rfl
  | some x =>
    cases hc : labelKey c with
    | none => rfl
    | some z =>
      obtain ⟨y, hy⟩ := Option.isSome_iff_exists.mp hb
      rw [ha, hy] at h1
      rw [hy, hc] at h2
      simp only [Bool.not_eq_true'] at h1 h2
      simp [lexLt_negtrans x y z h1 h2]


/-- One step of a stable insertion: x goes before the first element it may
stay before. -/
def insertByLabel (x : ITreePlotData) : List ITreePlotData → List ITreePlotData
  | [] => [x]
  | y :: ys => if labelLe x y then x :: y :: ys else y :: insertByLabel x ys

/-- Stable sort of a children array under the d3.ascending comparator on
labels.  The host runtime's Array#sort is stable, and for a comparator that
is total and (on present labels) transitive every stable sort returns this
same list, so insertion order models it. -/
def sortByLabel : List ITreePlotData → List ITreePlotData
  | [] => []
  | x :: xs => insertByLabel x (sortByLabel xs)

mutual

/-- node.sort of d3.hierarchy as called by buildHierarchyTree (graph.ts
lines 296 to 298): sort the children of every node of the tree by the
ascending-label comparator. -/
def sortTree : ITreePlotData → ITreePlotData
  | ITreePlotData.mk i l s e st cs =>
    ITreePlotData.mk i l s e st (sortByLabel (sortTreeList cs))

/-- node.sort applied to every tree of a list. -/
def sortTreeList : List ITreePlotData → List ITreePlotData
  | [] => []
  | t :: ts => sortTree t :: sortTreeList ts

end

/-- The forest as built while a tree mode is active: buildHierarchyTreeData
followed by the per-tree label sort of buildHierarchyTree. -/
def buildSortedForest (g : IGraphPlotData) (fuel : Nat) : List ITreePlotData :=
  (buildHierarchyTreeData g fuel).map sortTree

/-- A graph whose root R has children with ids b then a (in vertex-array
order) carrying the same label. -/
def c9Graph : IGraphPlotData :=
  { vertices := [
      { id := "R", label := Option.some ("r") },
      { id := "b", label := Option.some ("x") },
      { id := "a", label := Option.some ("x") }],
    edges := [
      { directed := true, source := EdgeEnd.str ("R"), target := EdgeEnd.str ("b") },
      { directed := true, source := EdgeEnd.str ("R"), target := EdgeEnd.str ("a") }] }

/-- C9 counterexample: two children with equal labels and ids b, a (in that
vertex-array order) stay in the order b, a after the rebuild's sort; the
claimed id tiebreak would give a, b.  Ties are broken by the original array
order (the sort is stable), not by ascending id. -/
theorem children_sort_counterexample :
    (buildSortedForest c9Graph 2).map (fun t => t.children.map ITreePlotData.id) =
      [[("b"), ("a")]] ∧
    (["b", "a"] : List String) ≠ ["a", "b"] := by
  exact ⟨by decide, by decide⟩

lemma insertByLabel_perm (x : ITreePlotData) :
    ∀ l, (insertByLabel x l).Perm (x :: l) := by
  intro l
  induction l with
  | nil => exact List.Perm.refl _
  | cons y ys ih =>
    rw [insertByLabel]
    by_cases h : labelLe x y = true
    · rw [if_pos h]
    · rw [if_neg h]
      exact (ih.cons y).trans (List.Perm.swap x y ys)

lemma sortByLabel_perm : ∀ l, (sortByLabel l).Perm l := by
  intro l
  induction l with
  | nil => exact List.Perm.refl _
  | cons x xs ih =>
    rw [sortByLabel]
    exact (insertByLabel_perm x (sortByLabel xs)).trans (ih.cons x)

lemma insertByLabel_sorted (x : ITreePlotData) :
    ∀ l : List ITreePlotData,
      (∀ u ∈ l, (labelKey u).isSome = true) →
      l.Pairwise (fun a b => labelLe a b = true) →
      (insertByLabel x l).Pairwise (fun a b => labelLe a b = true) := by
  intro l
  induction l with
  | nil =>
    intro _ _
    simp [insertByLabel]
  | cons y ys ih =>
    intro hsome hp
    rcases List.pairwise_cons.mp hp with ⟨hy, hys⟩
    rw [insertByLabel]
    by_cases h : labelLe x y = true
    · rw [if_pos h]
      apply List.pairwise_cons.mpr
      refine ⟨?_, hp⟩
      intro z hz
      rcases List.mem_cons.mp hz with rfl | hzys
      · exact h
      · exact labelLe_trans (hsome y (List.mem_cons_self y ys)) h (hy z hzys)
    · rw [if_neg h]
      apply List.pairwise_cons.mpr
      constructor
      · intro z hz
        have hz' := (insertByLabel_perm x ys).mem_iff.mp hz
        rcases List.mem_cons.mp hz' with rfl | hzys
        · exact (labelLe_total z y).resolve_left h
        · exact hy z hzys
      · exact ih (fun u hu => hsome u (List.mem_cons_of_mem y hu)) hys

lemma sortByLabel_sorted : ∀ l : List ITreePlotData,
    (∀ u ∈ l, (labelKey u).isSome = true) →
    (sortByLabel l).Pairwise (fun a b => labelLe a b = true) := by
  intro l
  induction l with
  | nil => intro _; exact List.Pairwise.nil
  | cons x xs ih =>
    intro hsome
    rw [sortByLabel]
    apply insertByLabel_sorted
    · intro u hu
      exact hsome u (List.mem_cons_of_mem x ((sortByLabel_perm xs).mem_iff.mp hu))
    · exact ih (fun u hu => hsome u (List.mem_cons_of_mem x hu))

mutual

/-- Every node of the tree carries a label. -/
def allLabelsSome : ITreePlotData → Bool
  | ITreePlotData.mk _ l _ _ _ cs => l.isSome && allLabelsSomeList cs

/-- Every node of every tree of the list carries a label. -/
def allLabelsSomeList : List ITreePlotData → Bool
  | [] => true
  | t :: ts => allLabelsSome t && allLabelsSomeList ts

end

mutual

/-- Every node's children list is ordered by the ascending-label
comparator. -/
def TreeChildrenSorted : ITreePlotData → Prop
  | ITreePlotData.mk _ _ _ _ _ cs =>
    cs.Pairwise (fun a b => labelLe a b = true) ∧ TreeChildrenSortedList cs

/-- TreeChildrenSorted for every tree of a list. -/
def TreeChildrenSortedList : List ITreePlotData → Prop
  | [] => True
  | t :: ts => TreeChildrenSorted t ∧ TreeChildrenSortedList ts

end

lemma sortTree_label : ∀ t : ITreePlotData, (sortTree t).label = t.label := by
  intro t
  cases t
  rfl

lemma labelKey_sortTree (t : ITreePlotData) : labelKey (sortTree t) = labelKey t := by
  rw [labelKey, labelKey, sortTree_label]

lemma sortTreeList_eq_map : ∀ l : List ITreePlotData, sortTreeList l = l.map sortTree := by
  intro l
  induction l with
  | nil => rfl
  | cons t ts ih => rw [sortTreeList, ih, List.map_cons]

lemma allLabelsSomeList_mem : ∀ {l : List ITreePlotData} {t : ITreePlotData},
    allLabelsSomeList l = true → t ∈ l → allLabelsSome t = true := by
  intro l
  induction l with
  | nil => intro t _ ht; cases ht
  | cons u us ih =>
    intro t hall ht
    rw [allLabelsSomeList, Bool.and_eq_true] at hall
    rcases List.mem_cons.mp ht with rfl | hts
    · exact hall.1
    · exact ih hall.2 hts

lemma allLabelsSome_key {t : ITreePlotData} (h : allLabelsSome t = true) :
    (labelKey t).isSome = true := by
  cases t with
  | mk i l s e st cs =>
    rw [allLabelsSome, Bool.and_eq_true] at h
    rw [labelKey]
    simp only [ITreePlotData.label]
    cases l with
    | none => cases h.1
    | some lab => rfl

lemma allLabelsSome_children {i l s e st cs}
    (h : allLabelsSome (ITreePlotData.mk i l s e st cs) = true) :
    allLabelsSomeList cs = true := by
  rw [allLabelsSome, Bool.and_eq_true] at h
  exact h.2

lemma TreeChildrenSortedList_iff : ∀ l : List ITreePlotData,
    TreeChildrenSortedList l ↔ ∀ t ∈ l, TreeChildrenSorted t := by
  intro l
  induction l with
  | nil => simp [TreeChildrenSortedList]
  | cons t ts ih =>
    rw [TreeChildrenSortedList, ih]
    constructor
    · rintro ⟨h1, h2⟩ u hu
      rcases List.mem_cons.mp hu with rfl | hus
      · exact h1
      · exact h2 u hus
    · intro h
      exact ⟨h t (List.mem_cons_self t ts),
        fun u hu => h u (List.mem_cons_of_mem t hu)⟩

lemma treeIdsList_perm : ∀ {l1 l2 : List ITreePlotData}, l1.Perm l2 →
    (treeIdsList l1).Perm (treeIdsList l2) := by
  intro l1 l2 h
  induction h with
  | nil => exact List.Perm.refl _
  | cons x _ ih =>
    rw [treeIdsList, treeIdsList]
    exact ih.append_left (treeIds x)
  | swap x y l =>
    rw [treeIdsList, treeIdsList, treeIdsList, treeIdsList,
      ← List.append_assoc, ← List.append_assoc]
    exact List.Perm.append_right (treeIdsList l) (List.perm_append_comm)
  | trans _ _ ih1 ih2 => exact ih1.trans ih2

lemma treeIdsList_perm_pointwise : ∀ cs : List ITreePlotData,
    (∀ c ∈ cs, (treeIds (sortTree c)).Perm (treeIds c)) →
    (treeIdsList (sortTreeList cs)).Perm (treeIdsList cs) := by
  intro cs
  induction cs with
  | nil => intro _; exact List.Perm.refl _
  | cons c cs ih =>
    intro h
    rw [sortTreeList, treeIdsList, treeIdsList]
    exact List.Perm.append (h c (List.mem_cons_self c cs))
      (ih (fun u hu => h u (List.mem_cons_of_mem c hu)))

lemma treeSize_le_of_mem : ∀ {cs : List ITreePlotData} {t : ITreePlotData},
    t ∈ cs → treeSize t ≤ treeSizeList cs := by
  intro cs
  induction cs with
  | nil => intro t ht; cases ht
  | cons u us ih =>
    intro t ht
    rw [treeSizeList]
    rcases List.mem_cons.mp ht with rfl | hts
    · omega
    · have := ih hts
      omega

lemma sortTree_spec : ∀ (n : Nat) (t : ITreePlotData), treeSize t ≤ n →
    allLabelsSome t = true →
    TreeChildrenSorted (sortTree t) ∧ (treeIds (sortTree t)).Perm (treeIds t) := by
  intro n
  induction n with
  | zero =>
    intro t h _
    cases t with
    | mk i l s e st cs =>
      rw [treeSize] at h
      omega
  | succ m ih =>
    intro t hsize hall
    cases t with
    | mk i l s e st cs =>
      rw [treeSize] at hsize
      have hcs : allLabelsSomeList cs = true := allLabelsSome_children hall
      have hchild : ∀ c ∈ cs, TreeChildrenSorted (sortTree c) ∧
          (treeIds (sortTree c)).Perm (treeIds c) := by
        intro c hc
        apply ih c
        · have := treeSize_le_of_mem hc
          omega
        · exact allLabelsSomeList_mem hcs hc
      have hkeys : ∀ u ∈ sortTreeList cs, (labelKey u).isSome = true := by
        intro u hu
        rw [sortTreeList_eq_map] at hu
        obtain ⟨c, hcmem, rfl⟩ := List.mem_map.mp hu
        rw [labelKey_sortTree]
        exact allLabelsSome_key (allLabelsSomeList_mem hcs hcmem)
      constructor
      · rw [sortTree, TreeChildrenSorted]
        constructor
        · exact sortByLabel_sorted (sortTreeList cs) hkeys
        · rw [TreeChildrenSortedList_iff]
          intro u hu
          have hu' := (sortByLabel_perm (sortTreeList cs)).mem_iff.mp hu
          rw [sortTreeList_eq_map] at hu'
          obtain ⟨c, hcmem, rfl⟩ := List.mem_map.mp hu'
          exact (hchild c hcmem).1
      · rw [sortTree, treeIds, treeIds]
        exact ((treeIdsList_perm (sortByLabel_perm (sortTreeList cs))).trans
          (treeIdsList_perm_pointwise cs (fun c hc => (hchild c hc).2))).cons i

/-- C9 amended: on every hierarchy rebuild each node's children are ordered
ascending by label (whenever labels are present), and the sorted children of
every node are a permutation of the built ones; ties between equal labels
keep the original vertex-array order (the sort is stable), with no id
tiebreak.  The rebuild is a pure function of the graph, so repeated rebuilds
of the same graph produce the same child order. -/
theorem children_sort_amended :
    ∀ t : ITreePlotData, allLabelsSome t = true →
      TreeChildrenSorted (sortTree t) ∧ (treeIds (sortTree t)).Perm (treeIds t) :=
  fun t hall => sortTree_spec (treeSize t) t (Nat.le_refl _) hall

/-- The fully labelled tree the c9 graph builds, used to instantiate the
amended sort theorem. -/
def c9WitnessTree : ITreePlotData :=
  ITreePlotData.mk ("R") (Option.some ("r")) Option.none Option.none Option.none
    [ITreePlotData.mk ("b") (Option.some ("x")) Option.none Option.none Option.none [],
     ITreePlotData.mk ("a") (Option.some ("x")) Option.none Option.none Option.none []]

/-- Witness instantiating children_sort_amended on a concrete labelled
tree. -/
theorem children_sort_amended_witness :
    TreeChildrenSorted (sortTree c9WitnessTree) ∧
    (treeIds (sortTree c9WitnessTree)).Perm (treeIds c9WitnessTree) :=
  children_sort_amended c9WitnessTree (by decide)

/-- Reachability along the child relation of the traversal: b is reached
from a by following edges in the same-representation sense the children
filter tests, stepping only onto ids of existing vertices (as the traversal
does, since children are drawn from the vertex array). -/
inductive Reaches (g : IGraphPlotData) : String → String → Prop where
  | refl (v : String) : Reaches g v v
  | step {a b c : String} : Reaches g a b → hasEdgeB g.edges b c = true →
      c ∈ g.vertices.map (fun v => v.id) → Reaches g a c

lemma reaches_trans {g : IGraphPlotData} {a b c : String}
    (h1 : Reaches g a b) (h2 : Reaches g b c) : Reaches g a c := by
  induction h2 with
  | refl => exact h1
  | step _ he hm ih => exact Reaches.step ih he hm

lemma reaches_inv {g : IGraphPlotData} {a b : String} (h : Reaches g a b) :
    a = b ∨ ∃ u, Reaches g a u ∧ hasEdgeB g.edges u b = true := by
  cases h with
  | refl => exact Or.inl rfl
  | step h he _ => exact Or.inr ⟨_, h, he⟩

lemma reaches_mem {g : IGraphPlotData} {a b : String} (h : Reaches g a b) :
    b = a ∨ b ∈ g.vertices.map (fun v => v.id) := by
  cases h with
  | refl => exact Or.inl rfl
  | step _ _ hm => exact Or.inr hm

lemma reaches_rank_le {g : IGraphPlotData} {rank : String → Nat}
    (hrank : ∀ e ∈ g.edges, sameRep e = true →
      rank (idOf e.target) < rank (idOf e.source))
    {a b : String} (h : Reaches g a b) : rank b ≤ rank a := by
  induction h with
  | refl => exact Nat.le_refl _
  | step _ he _ ih =>
    have := hasEdgeB_rank hrank he
    omega

lemma no_up_reach {g : IGraphPlotData} {rank : String → Nat}
    (hrank : ∀ e ∈ g.edges, sameRep e = true →
      rank (idOf e.target) < rank (idOf e.source))
    {u w : String} (he : hasEdgeB g.edges u w = true) (h : Reaches g w u) :
    False := by
  have h1 := hasEdgeB_rank hrank he
  have h2 := reaches_rank_le hrank h
  omega

lemma hasEdgeB_uniq {g : IGraphPlotData}
    (huniq : ∀ e1 ∈ g.edges, ∀ e2 ∈ g.edges, sameRep e1 = true →
      sameRep e2 = true → idOf e1.target = idOf e2.target →
      idOf e1.source = idOf e2.source)
    {p1 p2 c : String} (h1 : hasEdgeB g.edges p1 c = true)
    (h2 : hasEdgeB g.edges p2 c = true) : p1 = p2 := by
  rw [hasEdgeB, List.any_eq_true] at h1 h2
  obtain ⟨e1, he1, hm1⟩ := h1
  obtain ⟨e2, he2, hm2⟩ := h2
  obtain ⟨hs1, ht1, hr1⟩ := edgeMatches_ids hm1
  obtain ⟨hs2, ht2, hr2⟩ := edgeMatches_ids hm2
  have := huniq e1 he1 e2 he2 hr1 hr2 (by rw [ht1, ht2])
  rw [hs1, hs2] at this
  exact this

lemma reaches_totality {g : IGraphPlotData}
    (huniq : ∀ e1 ∈ g.edges, ∀ e2 ∈ g.edges, sameRep e1 = true →
      sameRep e2 = true → idOf e1.target = idOf e2.target →
      idOf e1.source = idOf e2.source)
    {a w : String} (h1 : Reaches g a w) :
    ∀ b, Reaches g b w → Reaches g a b ∨ Reaches g b a := by
  induction h1 with
  | refl => intro b h2; exact Or.inr h2
  | step h he hm ih =>
    intro b h2
    rcases reaches_inv h2 with rfl | ⟨u2, hbu2, he2⟩
    · exact Or.inl (Reaches.step h he hm)
    · have := hasEdgeB_uniq huniq he2 he
      subst this
      exact ih b hbu2

lemma edgeMatches_targetIdIs {e : IGraphEdge} {p c : String}
    (h : edgeMatches e p c = true) : targetIdIs e c = true := by
  cases hs : e.source with
  | str s =>
    cases ht : e.target with
    | str t =>
      rw [edgeMatches, hs, ht, Bool.and_eq_true] at h
      rw [targetIdIs, ht]
      exact h.2
    | vert tv =>
      rw [edgeMatches, hs, ht] at h
      cases h
  | vert sv =>
    cases ht : e.target with
    | str t =>
      rw [edgeMatches, hs, ht] at h
      cases h
    | vert tv =>
      rw [edgeMatches, hs, ht, Bool.and_eq_true] at h
      rw [targetIdIs, ht]
      exact h.2

lemma root_not_target {g : IGraphPlotData} {r : IGraphVertex}
    (hr : isRootVertex g.edges r = true) {u : String}
    (he : hasEdgeB g.edges u r.id = true) : False := by
  rw [isRootVertex, Bool.not_eq_true', List.any_eq_false] at hr
  rw [hasEdgeB, List.any_eq_true] at he
  obtain ⟨e, hmem, hm⟩ := he
  exact absurd (edgeMatches_targetIdIs hm) (by simpa using hr e hmem)

lemma root_unique {g : IGraphPlotData}
    (huniq : ∀ e1 ∈ g.edges, ∀ e2 ∈ g.edges, sameRep e1 = true →
      sameRep e2 = true → idOf e1.target = idOf e2.target →
      idOf e1.source = idOf e2.source)
    {r1 r2 : IGraphVertex} (hr1 : isRootVertex g.edges r1 = true)
    (hr2 : isRootVertex g.edges r2 = true) {w : String}
    (h1 : Reaches g r1.id w) (h2 : Reaches g r2.id w) : r1.id = r2.id := by
  rcases reaches_totality huniq h1 r2.id h2 with h | h
  · rcases reaches_inv h with heq | ⟨u, _, he⟩
    · exact heq
    · exact absurd he (fun he => root_not_target hr2 he)
  · rcases reaches_inv h with heq | ⟨u, _, he⟩
    · exact heq.symm
    · exact absurd he (fun he => root_not_target hr1 he)

lemma mem_treeIdsList {w : String} : ∀ {l : List ITreePlotData},
    w ∈ treeIdsList l ↔ ∃ t ∈ l, w ∈ treeIds t := by
  intro l
  induction l with
  | nil => simp [treeIdsList]
  | cons t ts ih =>
    rw [treeIdsList, List.mem_append, ih]
    constructor
    · rintro (h | ⟨u, hu, hw⟩)
      · exact ⟨t, List.mem_cons_self t ts, h⟩
      · exact ⟨u, List.mem_cons_of_mem t hu, hw⟩
    · rintro ⟨u, hu, hw⟩
      rcases List.mem_cons.mp hu with rfl | hu'
      · exact Or.inl hw
      · exact Or.inr ⟨u, hu', hw⟩

lemma withChildren_id (vs : List IGraphVertex) (es : List IGraphEdge)
    (n : Nat) (v : IGraphVertex) : (withChildren vs es n v).id = v.id := by
  cases n <;> rfl

lemma head_mem_treeIds (vs : List IGraphVertex) (es : List IGraphEdge)
    (n : Nat) (v : IGraphVertex) : v.id ∈ treeIds (withChildren vs es n v) := by
  cases n with
  | zero =>
    rw [withChildren, treeIds]
    exact List.mem_cons_self _ _
  | succ m =>
    rw [withChildren, treeIds]
    exact List.mem_cons_self _ _

lemma treeIds_reaches (g : IGraphPlotData) :
    ∀ (n : Nat) (v : IGraphVertex) (w : String),
      w ∈ treeIds (withChildren g.vertices g.edges n v) → Reaches g v.id w := by
  intro n
  induction n with
  | zero =>
    intro v w hw
    rw [withChildren, treeIds] at hw
    rcases List.mem_cons.mp hw with rfl | h
    · exact Reaches.refl _
    · simp [treeIdsList] at h
  | succ m ih =>
    intro v w hw
    rw [withChildren, treeIds] at hw
    rcases List.mem_cons.mp hw with rfl | hw'
    · exact Reaches.refl _
    · obtain ⟨t, ht, hwt⟩ := mem_treeIdsList.mp hw'
      obtain ⟨c, hc, rfl⟩ := List.mem_map.mp ht
      have hcv : c ∈ g.vertices := (List.mem_filter.mp hc).1
      have hedge : hasEdgeB g.edges v.id c.id = true := by
        simpa using (List.mem_filter.mp hc).2
      exact reaches_trans
        (Reaches.step (Reaches.refl v.id) hedge
          (List.mem_map_of_mem (fun v => v.id) hcv))
        (ih c w hwt)

lemma treeIds_closed (g : IGraphPlotData) (rank : String → Nat)
    (hrank : ∀ e ∈ g.edges, sameRep e = true →
      rank (idOf e.target) < rank (idOf e.source)) :
    ∀ (n : Nat) (v : IGraphVertex), rank v.id < n →
      ∀ (b c : String), b ∈ treeIds (withChildren g.vertices g.edges n v) →
        hasEdgeB g.edges b c = true → c ∈ g.vertices.map (fun v => v.id) →
        c ∈ treeIds (withChildren g.vertices g.edges n v) := by
  intro n
  induction n with
  | zero => intro v h; omega
  | succ m ih =>
    intro v hv b c hb he hc
    rw [withChildren, treeIds] at hb ⊢
    obtain ⟨vc, hvc, rfl⟩ := List.mem_map.mp hc
    rcases List.mem_cons.mp hb with rfl | hb'
    · apply List.mem_cons_of_mem
      apply mem_treeIdsList.mpr
      refine ⟨withChildren g.vertices g.edges m vc, ?_, ?_⟩
      · apply List.mem_map_of_mem
        apply List.mem_filter.mpr
        exact ⟨hvc, by simpa using he⟩
      · exact head_mem_treeIds _ _ _ _
    · apply List.mem_cons_of_mem
      obtain ⟨t, ht, hbt⟩ := mem_treeIdsList.mp hb'
      obtain ⟨k, hk, rfl⟩ := List.mem_map.mp ht
      have hedge : hasEdgeB g.edges v.id k.id = true := by
        simpa using (List.mem_filter.mp hk).2
      have hrk : rank k.id < rank v.id := hasEdgeB_rank hrank hedge
      apply mem_treeIdsList.mpr
      refine ⟨withChildren g.vertices g.edges m k, ht, ?_⟩
      exact ih k (by omega) b vc.id hbt he (List.mem_map_of_mem (fun v => v.id) hvc)

lemma reaches_in_tree (g : IGraphPlotData) (rank : String → Nat)
    (hrank : ∀ e ∈ g.edges, sameRep e = true →
      rank (idOf e.target) < rank (idOf e.source))
    {r : IGraphVertex} (fuel : Nat) (hfuel : rank r.id < fuel)
    {w : String} (h : Reaches g r.id w) :
    w ∈ treeIds (withChildren g.vertices g.edges fuel r) := by
  induction h with
  | refl => exact head_mem_treeIds _ _ _ _
  | step hr he hm ih =>
    exact treeIds_closed g rank hrank fuel r hfuel _ _ ih he hm

lemma pairwise_id_ne {l : List IGraphVertex}
    (h : (l.map (fun v => v.id)).Nodup) :
    l.Pairwise (fun a b => a.id ≠ b.id) := by
  induction l with
  | nil => exact List.Pairwise.nil
  | cons v vs ih =>
    rw [List.map_cons, List.nodup_cons] at h
    apply List.pairwise_cons.mpr
    refine ⟨?_, ih h.2⟩
    intro b hb heq
    exact h.1 (heq ▸ List.mem_map_of_mem (fun v => v.id) hb)

lemma treeIdsList_nodup_of : ∀ {l : List ITreePlotData},
    (∀ t ∈ l, (treeIds t).Nodup) →
    l.Pairwise (fun t1 t2 => ∀ i ∈ treeIds t1, i ∉ treeIds t2) →
    (treeIdsList l).Nodup := by
  intro l
  induction l with
  | nil => intro _ _; exact List.Pairwise.nil
  | cons t ts ih =>
    intro hall hp
    rcases List.pairwise_cons.mp hp with ⟨hhead, htail⟩
    rw [treeIdsList]
    apply List.Nodup.append
    · exact hall t (List.mem_cons_self t ts)
    · exact ih (fun u hu => hall u (List.mem_cons_of_mem t hu)) htail
    · intro i hi hi'
      obtain ⟨u, hu, hiu⟩ := mem_treeIdsList.mp hi'
      exact hhead u hu i hi hiu

lemma sibling_disjoint (g : IGraphPlotData) (rank : String → Nat)
    (hrank : ∀ e ∈ g.edges, sameRep e = true →
      rank (idOf e.target) < rank (idOf e.source))
    (huniq : ∀ e1 ∈ g.edges, ∀ e2 ∈ g.edges, sameRep e1 = true →
      sameRep e2 = true → idOf e1.target = idOf e2.target →
      idOf e1.source = idOf e2.source)
    {v c1 c2 : IGraphVertex} {n1 n2 : Nat}
    (he1 : hasEdgeB g.edges v.id c1.id = true)
    (he2 : hasEdgeB g.edges v.id c2.id = true)
    (hne : c1.id ≠ c2.id) :
    ∀ i ∈ treeIds (withChildren g.vertices g.edges n1 c1),
      i ∉ treeIds (withChildren g.vertices g.edges n2 c2) := by
  intro i h1 h2
  have hr1 : Reaches g c1.id i := treeIds_reaches g n1 c1 i h1
  have hr2 : Reaches g c2.id i := treeIds_reaches g n2 c2 i h2
  rcases reaches_totality huniq hr1 c2.id hr2 with h | h
  · rcases reaches_inv h with heq | ⟨u, hu, he⟩
    · exact hne heq
    · have := hasEdgeB_uniq huniq he he2
      subst this
      exact no_up_reach hrank he1 hu
  · rcases reaches_inv h with heq | ⟨u, hu, he⟩
    · exact hne heq.symm
    · have := hasEdgeB_uniq huniq he he1
      subst this
      exact no_up_reach hrank he2 hu

lemma treeIds_nodup (g : IGraphPlotData) (rank : String → Nat)
    (hnodup : (g.vertices.map (fun v => v.id)).Nodup)
    (hrank : ∀ e ∈ g.edges, sameRep e = true →
      rank (idOf e.target) < rank (idOf e.source))
    (huniq : ∀ e1 ∈ g.edges, ∀ e2 ∈ g.edges, sameRep e1 = true →
      sameRep e2 = true → idOf e1.target = idOf e2.target →
      idOf e1.source = idOf e2.source) :
    ∀ (n : Nat) (v : IGraphVertex),
      (treeIds (withChildren g.vertices g.edges n v)).Nodup := by
  intro n
  induction n with
  | zero =>
    intro v
    rw [withChildren, treeIds]
    simp [treeIdsList]
  | succ m ih =>
    intro v
    rw [withChildren, treeIds]
    apply List.nodup_cons.mpr
    constructor
    · intro hmem
      obtain ⟨t, ht, hvt⟩ := mem_treeIdsList.mp hmem
      obtain ⟨c, hc, rfl⟩ := List.mem_map.mp ht
      have hedge : hasEdgeB g.edges v.id c.id = true := by
        simpa using (List.mem_filter.mp hc).2
      exact no_up_reach hrank hedge (treeIds_reaches g m c v.id hvt)
    · apply treeIdsList_nodup_of
      · intro t ht
        obtain ⟨c, _, rfl⟩ := List.mem_map.mp ht
        exact ih c
      · apply List.pairwise_map.mpr
        have hchildnd : ((g.vertices.filter
            (fun child => hasEdgeB g.edges v.id child.id)).map
              (fun v => v.id)).Nodup := by
          apply List.Nodup.sublist
          · exact List.Sublist.map (fun v => v.id) (List.filter_sublist g.vertices)
          · exact hnodup
        have hpne := pairwise_id_ne hchildnd
        apply List.Pairwise.imp_of_mem ?_ hpne
        intro c1 c2 hc1 hc2 hne
        have he1 : hasEdgeB g.edges v.id c1.id = true := by
          simpa using (List.mem_filter.mp hc1).2
        have he2 : hasEdgeB g.edges v.id c2.id = true := by
          simpa using (List.mem_filter.mp hc2).2
        exact sibling_disjoint g rank hrank huniq he1 he2 hne

lemma treeSize_eq_length_aux : ∀ (n : Nat) (t : ITreePlotData), treeSize t ≤ n →
    treeSize t = (treeIds t).length := by
  intro n
  induction n with
  | zero =>
    intro t h
    cases t with
    | mk i l s e st cs =>
      rw [treeSize] at h
      omega
  | succ m ih =>
    intro t hsize
    cases t with
    | mk i l s e st cs =>
      rw [treeSize, treeIds, List.length_cons]
      rw [treeSize] at hsize
      suffices h : ∀ cs' : List ITreePlotData, treeSizeList cs' ≤ m →
          treeSizeList cs' = (treeIdsList cs').length by
        rw [h cs (by omega)]
        omega
      intro cs'
      induction cs' with
      | nil => intro _; rfl
      | cons c cs'' ihl =>
        intro hb
        rw [treeSizeList] at hb ⊢
        rw [treeIdsList, List.length_append]
        have hc1 : treeSize c = (treeIds c).length := ih c (by omega)
        rw [← hc1, ihl (by omega)]

lemma treeSize_eq_length (t : ITreePlotData) : treeSize t = (treeIds t).length :=
  treeSize_eq_length_aux (treeSize t) t (Nat.le_refl _)

lemma treeIdsList_length : ∀ l : List ITreePlotData,
    (treeIdsList l).length = (l.map treeSize).sum := by
  intro l
  induction l with
  | nil => rfl
  | cons t ts ih =>
    rw [treeIdsList, List.length_append, List.map_cons, List.sum_cons, ih,
      treeSize_eq_length t]

lemma filter_length_map (q : String → Bool) : ∀ vs : List IGraphVertex,
    (vs.filter (fun v => q v.id)).length =
    ((vs.map (fun v => v.id)).filter q).length := by
  intro vs
  induction vs with
  | nil => rfl
  | cons v t ihl =>
    rw [List.map_cons, List.filter_cons, List.filter_cons]
    cases h : q v.id <;> simp [h, ihl]

lemma filter_count {vs : List IGraphVertex} {A : List String} (q : String → Bool)
    (hq : ∀ a, q a = true ↔ a ∈ A)
    (hvs : (vs.map (fun v => v.id)).Nodup) (hA : A.Nodup)
    (hsub : ∀ a ∈ A, a ∈ vs.map (fun v => v.id)) :
    (vs.filter (fun v => q v.id)).length = A.length := by
  rw [filter_length_map]
  have hfil : ((vs.map (fun v => v.id)).filter q).Nodup := hvs.filter _
  have hperm : ((vs.map (fun v => v.id)).filter q).Perm A := by
    apply (List.perm_ext_iff_of_nodup hfil hA).mpr
    intro a
    rw [List.mem_filter]
    constructor
    · rintro ⟨_, hc⟩
      exact (hq a).mp hc
    · intro ha
      exact ⟨hsub a ha, (hq a).mpr ha⟩
  exact hperm.length_eq

/-- C2 amended: the forest roots are exactly the vertices with no incoming
edge, in vertex-array order.  A non-root vertex is placed under every parent
whose traversal discovers it, so trees can overlap and share vertices; but
on graphs whose edge relation admits a strictly decreasing rank (acyclic)
and in which every vertex has at most one incoming edge, the trees are
pairwise disjoint, the combined vertex count of the forest equals the number
of vertices appearing in it, and the vertices appearing in it are exactly
those reachable from a root. -/
theorem hierarchy_forest_amended (g : IGraphPlotData) (rank : String → Nat)
    (fuel : Nat)
    (hnodup : (g.vertices.map (fun v => v.id)).Nodup)
    (hrank : ∀ e ∈ g.edges, sameRep e = true →
      rank (idOf e.target) < rank (idOf e.source))
    (huniq : ∀ e1 ∈ g.edges, ∀ e2 ∈ g.edges, sameRep e1 = true →
      sameRep e2 = true → idOf e1.target = idOf e2.target →
      idOf e1.source = idOf e2.source)
    (hfuel : ∀ v ∈ g.vertices, rank v.id < fuel) :
    (buildHierarchyTreeData g fuel).map ITreePlotData.id =
      (g.vertices.filter (isRootVertex g.edges)).map (fun v => v.id) ∧
    (buildHierarchyTreeData g fuel).Pairwise
      (fun t1 t2 => ∀ i ∈ treeIds t1, i ∉ treeIds t2) ∧
    ((buildHierarchyTreeData g fuel).map treeSize).sum =
      (g.vertices.filter (fun v => (buildHierarchyTreeData g fuel).any
        (fun t => (treeIds t).contains v.id))).length ∧
    (∀ v ∈ g.vertices,
      ((buildHierarchyTreeData g fuel).any
        (fun t => (treeIds t).contains v.id)) = true ↔
       ∃ r ∈ g.vertices, isRootVertex g.edges r = true ∧ Reaches g r.id v.id) := by
  have hdisj : (buildHierarchyTreeData g fuel).Pairwise
      (fun t1 t2 => ∀ i ∈ treeIds t1, i ∉ treeIds t2) := by
    rw [buildHierarchyTreeData]
    apply List.pairwise_map.mpr
    have hroots_nd : ((g.vertices.filter (isRootVertex g.edges)).map
        (fun v => v.id)).Nodup :=
      List.Nodup.sublist
        (List.Sublist.map (fun v => v.id) (List.filter_sublist g.vertices)) hnodup
    apply List.Pairwise.imp_of_mem ?_ (pairwise_id_ne hroots_nd)
    intro r1 r2 hr1 hr2 hne i hi1 hi2
    have hroot1 : isRootVertex g.edges r1 = true := by
      simpa using (List.mem_filter.mp hr1).2
    have hroot2 : isRootVertex g.edges r2 = true := by
      simpa using (List.mem_filter.mp hr2).2
    exact hne (root_unique huniq hroot1 hroot2
      (treeIds_reaches g fuel r1 i hi1) (treeIds_reaches g fuel r2 i hi2))
  have hforest_nd : (treeIdsList (buildHierarchyTreeData g fuel)).Nodup := by
    apply treeIdsList_nodup_of
    · intro t ht
      rw [buildHierarchyTreeData] at ht
      obtain ⟨r, _, rfl⟩ := List.mem_map.mp ht
      exact treeIds_nodup g rank hnodup hrank huniq fuel r
    · exact hdisj
  have hsub : ∀ a ∈ treeIdsList (buildHierarchyTreeData g fuel),
      a ∈ g.vertices.map (fun v => v.id) := by
    intro a ha
    obtain ⟨t, ht, hat⟩ := mem_treeIdsList.mp ha
    rw [buildHierarchyTreeData] at ht
    obtain ⟨r, hr, rfl⟩ := List.mem_map.mp ht
    have hrv : r ∈ g.vertices := (List.mem_filter.mp hr).1
    rcases reaches_mem (treeIds_reaches g fuel r a hat) with rfl | hmem
    · exact List.mem_map_of_mem (fun v => v.id) hrv
    · exact hmem
  have hiff : ∀ v ∈ g.vertices,
      ((buildHierarchyTreeData g fuel).any
        (fun t => (treeIds t).contains v.id)) = true ↔
       ∃ r ∈ g.vertices, isRootVertex g.edges r = true ∧ Reaches g r.id v.id := by
    intro v hv
    rw [List.any_eq_true]
    constructor
    · rintro ⟨t, ht, hc⟩
      rw [buildHierarchyTreeData] at ht
      obtain ⟨r, hr, rfl⟩ := List.mem_map.mp ht
      have hrv : r ∈ g.vertices := (List.mem_filter.mp hr).1
      have hroot : isRootVertex g.edges r = true := by
        simpa using (List.mem_filter.mp hr).2
      exact ⟨r, hrv, hroot, treeIds_reaches g fuel r v.id (by simpa using hc)⟩
    · rintro ⟨r, hrv, hroot, hreach⟩
      refine ⟨withChildren g.vertices g.edges fuel r, ?_, ?_⟩
      · rw [buildHierarchyTreeData]
        apply List.mem_map_of_mem
        exact List.mem_filter.mpr ⟨hrv, by simpa using hroot⟩
      · simpa using reaches_in_tree g rank hrank fuel (hfuel r hrv) hreach
  refine ⟨?_, hdisj, ?_, hiff⟩
  · rw [buildHierarchyTreeData, List.map_map]
    apply List.map_congr_left
    intro r _
    exact withChildren_id g.vertices g.edges fuel r
  · have h1 : ((buildHierarchyTreeData g fuel).map treeSize).sum =
        (treeIdsList (buildHierarchyTreeData g fuel)).length :=
      (treeIdsList_length _).symm
    rw [h1]
    have hq : ∀ a, ((buildHierarchyTreeData g fuel).any
        (fun t => (treeIds t).contains a)) = true ↔
        a ∈ treeIdsList (buildHierarchyTreeData g fuel) := by
      intro a
      rw [List.any_eq_true, mem_treeIdsList]
      constructor
      · rintro ⟨t, ht, hc⟩
        exact ⟨t, ht, by simpa using hc⟩
      · rintro ⟨t, ht, hm⟩
        exact ⟨t, ht, by simpa using hm⟩
    exact (filter_count (fun a => (buildHierarchyTreeData g fuel).any
      (fun t => (treeIds t).contains a)) hq hnodup hforest_nd hsub).symm

/-- A two-root acyclic diamond: C has edges from both roots A and B. -/
def diamondGraph : IGraphPlotData :=
  { vertices := [{ id := "A" }, { id := "B" }, { id := "C" }],
    edges := [
      { directed := true, source := EdgeEnd.str ("A"), target := EdgeEnd.str ("C") },
      { directed := true, source := EdgeEnd.str ("B"), target := EdgeEnd.str ("C") }] }

/-- A rank decreasing along the diamond's edges, certifying acyclicity. -/
def diamondRank (s : String) : Nat :=
  if s == ("C") then 0 else 1

/-- C2 counterexample: on the acyclic two-root diamond graph the builder
places the shared child C under both roots, so the non-root vertex C appears
under two parents, the two trees are not disjoint, and the combined vertex
count 4 differs from the 3 non-orphaned vertices.  The rank certificate in
the first conjunct shows the graph is acyclic, so it falls under the
claim. -/
theorem hierarchy_forest_counterexample :
    (diamondGraph.edges.all (fun e => !(sameRep e) ||
      decide (diamondRank (idOf e.target) < diamondRank (idOf e.source)))) = true ∧
    (buildHierarchyTreeData diamondGraph 2).map treeIds =
      [[("A"), ("C")], [("B"), ("C")]] ∧
    ((buildHierarchyTreeData diamondGraph 2).map treeSize).sum = 4 ∧
    (diamondGraph.vertices.filter (fun v =>
      (buildHierarchyTreeData diamondGraph 2).any
        (fun t => (treeIds t).contains v.id))).length = 3 ∧
    (4 : ℕ) ≠ 3 := by
  refine ⟨by decide, by decide, by decide, by decide, by decide⟩

/-- Witness instantiating hierarchy_forest_amended on the single-parent
acyclic chain graph. -/
theorem hierarchy_forest_amended_witness :
    ((buildHierarchyTreeData rankedGraph 3).map treeSize).sum =
      (rankedGraph.vertices.filter (fun v => (buildHierarchyTreeData rankedGraph 3).any
        (fun t => (treeIds t).contains v.id))).length :=
  (hierarchy_forest_amended rankedGraph rankedGraphRank 3 (by decide) (by decide)
    (by decide) (by decide)).2.2.1
